import Mathlib

/-!
Shallow embedding of the process-pool core of `pebble/process/pool.py`
(classes `Pool`, `PoolManager`, `TaskManager`, `WorkerManager`, the
scheduler / status / message loops, and the worker-side dispatch loop),
together with theorems settling the specification claims about it.

Python dictionaries are modelled as insertion-ordered association lists
over `Nat` keys; wall-clock times (`time.time()`) are rational numbers;
the opaque task payload is an uninterpreted blob (`List Nat`).
-/

set_option autoImplicit false

namespace Pebble

/-! ### Insertion-ordered dictionaries (Python `dict` over `Nat` keys) -/

/-- Lookup in an insertion-ordered association list (`d[k]` / `d.get(k)`). -/
def dictLookup {α : Type} : List (Nat × α) → Nat → Option α
  | [], _ => none
  | e :: rest, k => if e.1 = k then some e.2 else dictLookup rest k

/-- Remove the entry with key `k`, if any (the effect of `d.pop(k)` on the dict). -/
def dictRemove {α : Type} : List (Nat × α) → Nat → List (Nat × α)
  | [], _ => []
  | e :: rest, k => if e.1 = k then rest else e :: dictRemove rest k

/-- Set `d[k] = v`: replace in place when the key exists (keeping insertion
order, as Python dicts do), otherwise append. -/
def dictSet {α : Type} : List (Nat × α) → Nat → α → List (Nat × α)
  | [], k, v => [(k, v)]
  | e :: rest, k, v => if e.1 = k then (k, v) :: rest else e :: dictSet rest k v

/-- The values of the dict in insertion order (`tuple(d.values())`). -/
def dictValues {α : Type} (d : List (Nat × α)) : List α := d.map Prod.snd

/-- The keys of the dict in insertion order (`tuple(d.keys())`). -/
def dictKeys {α : Type} (d : List (Nat × α)) : List Nat := d.map Prod.fst

/-! ### Data model -/

/-- Wall-clock instants and durations (`time.time()` values). -/
abbrev Time := ℚ

/-- Contents of a task's single `_metadata` slot.  At creation it holds the
opaque payload (the serialized callable and arguments, modelled as an
uninterpreted blob); `task_start` overwrites it with the acknowledging
worker's PID. -/
inductive Meta where
  | payload (blob : List Nat)
  | worker (pid : Nat)
deriving DecidableEq

/-- A value placed in a task's result slot by `set_results`. -/
inductive TResult where
  | value (blob : List Nat)
  | timeoutError
  | taskCancelled
  | processExpired (code : Int)
deriving DecidableEq

/-- A `pebble.task.Task` as seen by the pool.  The `Task` class itself lives
outside the pool module; its attributes read or written here are taken from
the spec's data model: identity, optional timeout (`0` models both `None`
and `0`, the falsy values), a started flag (set together with the start
timestamp on acknowledgement), the start timestamp, the client-set
cancelled flag, and the `_metadata` slot. -/
structure STask where
  tid : Nat
  timeout : Time
  started : Bool
  timestamp : Time
  cancelled : Bool
  metadata : Meta
deriving DecidableEq

/-- A `NewTask(id, payload)` message on the pool-to-workers channel. -/
structure NewTaskMsg where
  tid : Nat
  payload : Meta
deriving DecidableEq

/-- Messages delivered to `PoolManager.process_message` by the message pump. -/
inductive PMessage where
  | ack (worker : Nat) (task : Nat)
  | results (task : Nat) (res : TResult)
  | noMessage
deriving DecidableEq

/-! ### TaskManager -/

/-- State of `TaskManager`: the Task Registry (`self.tasks`, a dict keyed by
`id(task)`), plus the two externally visible effects of `task_done`: the
log of `set_results` calls (the result slot of each resolved task's future)
and the number of invocations of the queue's `task_done` callback. -/
structure TaskManagerS where
  tasks : List (Nat × STask)
  resolved : List (Nat × TResult)
  doneCallbacks : Nat
deriving DecidableEq

/-- `TaskManager.register`: `self.tasks[id(task)] = task`. -/
def TaskManagerS.register (s : TaskManagerS) (t : STask) : TaskManagerS :=
  { s with tasks := dictSet s.tasks t.tid t }

/-- `TaskManager.task_start`: look up the task; on `KeyError` do nothing,
otherwise set `_metadata` to the worker id and `_timestamp` to now (which
makes the task started). -/
def TaskManagerS.task_start (s : TaskManagerS) (task_id worker_id : Nat)
    (now : Time) : TaskManagerS :=
  match dictLookup s.tasks task_id with
  | none => s
  | some t =>
      let t' := { t with metadata := .worker worker_id, timestamp := now, started := true }
      { s with tasks := dictSet s.tasks task_id t' }

/-- `TaskManager.task_done`: pop the task; on `KeyError` do nothing,
otherwise set its results and invoke the queue's task-done callback. -/
def TaskManagerS.task_done (s : TaskManagerS) (task_id : Nat) (results : TResult) :
    TaskManagerS :=
  match dictLookup s.tasks task_id with
  | none => s
  | some _ =>
      { tasks := dictRemove s.tasks task_id,
        resolved := s.resolved ++ [(task_id, results)],
        doneCallbacks := s.doneCallbacks + 1 }

/-- `TaskManager.has_timeout`: `if task.timeout and task.started: return
time.time() - task._timestamp > task.timeout else False`.  Python truthiness
of `task.timeout` is modelled as `≠ 0` (both `None` and `0` are falsy). -/
def hasTimeout (now : Time) (t : STask) : Bool :=
  if t.timeout ≠ 0 ∧ t.started then decide (now - t.timestamp > t.timeout) else false

/-- `TaskManager.inspect_tasks`: over a snapshot of the registry's values,
return the tasks satisfying `has_timeout` and the tasks that are started
and cancelled. -/
def TaskManagerS.inspect_tasks (s : TaskManagerS) (now : Time) :
    List STask × List STask :=
  let tasks := dictValues s.tasks
  (tasks.filter (fun t => hasTimeout now t),
   tasks.filter (fun t => t.started && t.cancelled))

/-! ### WorkerManager -/

/-- A worker subprocess as the pool observes it: its PID, whether
`is_alive()` holds, and its exit code (meaningful only once dead; `0` is
`os.EX_OK`). -/
structure WorkerRec where
  pid : Nat
  alive : Bool
  exitcode : Int
deriving DecidableEq

/-- State of `WorkerManager`: the Worker Registry (`self.workers`, keyed by
PID), the configured worker count, the outbound pool-side channel (sequence
of `NewTask` messages written), the log of `stop_worker` invocations (each
records the `worker_id` argument, which is a task's `_metadata`), and a
supply of fresh PIDs for newly spawned workers. -/
structure WorkerManagerS where
  workers : List (Nat × WorkerRec)
  workersNumber : Nat
  channel : List NewTaskMsg
  stopCalls : List Meta
  nextPid : Nat
deriving DecidableEq

/-- `WorkerManager.dispatch`: `self.pool_channel.send(NewTask(id(task),
task._metadata))`. -/
def WorkerManagerS.dispatch (s : WorkerManagerS) (t : STask) : WorkerManagerS :=
  { s with channel := s.channel ++ [⟨t.tid, t.metadata⟩] }

/-- `WorkerManager.inspect_workers`: collect the registry values that are not
alive, pop each of them from the registry, and report `(pid, exitcode)` for
those whose exit code differs from `os.EX_OK`.  Returns the report together
with the updated state. -/
def WorkerManagerS.inspect_workers (s : WorkerManagerS) :
    List (Nat × Int) × WorkerManagerS :=
  let expired := (dictValues s.workers).filter (fun w => !w.alive)
  let workers' := expired.foldl (fun ws w => dictRemove ws w.pid) s.workers
  (((expired.filter (fun w => w.exitcode ≠ 0)).map (fun w => (w.pid, w.exitcode))),
   { s with workers := workers' })

/-- `WorkerManager.new_worker`: spawn a worker process (fresh PID, alive) and
insert it into the registry keyed by its PID. -/
def WorkerManagerS.new_worker (s : WorkerManagerS) : WorkerManagerS :=
  { s with workers := dictSet s.workers s.nextPid ⟨s.nextPid, true, 0⟩,
           nextPid := s.nextPid + 1 }

/-- `WorkerManager.create_workers`: spawn `workers_number - len(workers)` new
workers (none when the registry is already at or above the target, as
Python's `range` of a negative number is empty). -/
def WorkerManagerS.create_workers (s : WorkerManagerS) : WorkerManagerS :=
  (List.range (s.workersNumber - s.workers.length)).foldl (fun w _ => w.new_worker) s

/-- `WorkerManager.stop_worker`: record the invocation, then pop and stop the
worker under the workers-channel lock; a `KeyError` (worker already gone) is
swallowed.  The lock-timeout path skips the pop but the invocation has still
occurred; the claims below only concern the invocation log, which is the
same on both paths, so the lock is modelled as always acquired. -/
def WorkerManagerS.stop_worker (s : WorkerManagerS) (worker_id : Meta) :
    WorkerManagerS :=
  let s := { s with stopCalls := s.stopCalls ++ [worker_id] }
  match worker_id with
  | .worker pid => { s with workers := dictRemove s.workers pid }
  | .payload _ => s

/-! ### PoolManager -/

/-- Pool-level events, logged in the order the corresponding statements in
`PoolManager.schedule` execute: insertion into the Task Registry, and the
write of the `NewTask` message onto the pool-side channel. -/
inductive PEvent where
  | registered (tid : Nat)
  | sentNewTask (tid : Nat)
deriving DecidableEq

/-- State of `PoolManager`: its `TaskManager`, its `WorkerManager`, and the
event log recording the order of registrations and channel writes. -/
structure PoolManagerS where
  tm : TaskManagerS
  wm : WorkerManagerS
  log : List PEvent
deriving DecidableEq

/-- `PoolManager.schedule`: first `self.task_manager.register(task)`, then
`self.worker_manager.dispatch(task)`, in that order. -/
def PoolManagerS.schedule (s : PoolManagerS) (t : STask) : PoolManagerS :=
  let s1 := { s with tm := s.tm.register t, log := s.log ++ [PEvent.registered t.tid] }
  { s1 with wm := s1.wm.dispatch t, log := s1.log ++ [PEvent.sentNewTask t.tid] }

/-- `PoolManager.process_message`: an `Acknowledgement` starts the task, a
`Results` message resolves it, anything else is ignored. -/
def PoolManagerS.process_message (s : PoolManagerS) (now : Time) (m : PMessage) :
    PoolManagerS :=
  match m with
  | .ack w t => { s with tm := s.tm.task_start t w now }
  | .results t r => { s with tm := s.tm.task_done t r }
  | .noMessage => s

/-- `PoolManager.update_tasks`: inspect the Task Registry, resolve every
timed-out task with the Timeout error, then every started-and-cancelled
task with the Cancelled error, then invoke `stop_worker` with `t._metadata`
for each task of the concatenated `timeout + cancelled` list. -/
def PoolManagerS.update_tasks (s : PoolManagerS) (now : Time) : PoolManagerS :=
  let (timeoutL, cancelledL) := s.tm.inspect_tasks now
  let tm1 := timeoutL.foldl (fun m t => m.task_done t.tid TResult.timeoutError) s.tm
  let tm2 := cancelledL.foldl (fun m t => m.task_done t.tid TResult.taskCancelled) tm1
  let wm' := (timeoutL ++ cancelledL).foldl (fun w t => w.stop_worker t.metadata) s.wm
  { s with tm := tm2, wm := wm' }

/-- `PoolManager.worker_id_lookup`: the first task in the registry's values
whose `_metadata` equals the given worker id (a PID; the Python `==` between
a payload tuple and an integer PID is always false). -/
def worker_id_lookup (m : TaskManagerS) (wid : Nat) : Option STask :=
  (dictValues m.tasks).find? (fun t => t.metadata == .worker wid)

/-- One iteration of `update_workers`'s loop body for a reported
`(pid, exitcode)` pair: look the PID up among the task worker tags and, when
a task is found, resolve it with `ProcessExpired` carrying the exit code. -/
def expireStep (m : TaskManagerS) (pc : Nat × Int) : TaskManagerS :=
  match worker_id_lookup m pc.1 with
  | some t => m.task_done t.tid (.processExpired pc.2)
  | none => m

/-- `PoolManager.update_workers`: for each `(pid, exitcode)` reported by
`inspect_workers`, resolve the task whose worker tag matches the PID (when
there is one) with a `ProcessExpired` error carrying the exit code; then
top the pool up via `create_workers`. -/
def PoolManagerS.update_workers (s : PoolManagerS) : PoolManagerS :=
  let (reports, wm1) := s.wm.inspect_workers
  let tm' := reports.foldl expireStep s.tm
  { s with tm := tm', wm := wm1.create_workers }

/-! ### Task scheduler loop -/

/-- An item on the Submission Queue: either a `Task` object or the `None`
sentinel that `Pool.stop` puts on the queue. -/
inductive QItem where
  | item (t : STask)
  | sentinel
deriving DecidableEq

/-- The condition under which `pool_get_next_task` yields an item:
`isinstance(task, Task) and not task.cancelled`. -/
def liveItem : QItem → Bool
  | .item t => !t.cancelled
  | .sentinel => false

/-- The combined `task_scheduler_loop` / `pool_get_next_task` run over a
sequence of queue items, with the pool context alive throughout: each
yielded (live) task is handed to `PoolManager.schedule`; the first sentinel
or cancelled item makes the generator call `task_queue.task_done()` and
return, ending the loop.  Returns the final pool state, whether the queue
was acknowledged, and the items never taken off the queue. -/
def task_scheduler_run (s : PoolManagerS) :
    List QItem → PoolManagerS × Bool × List QItem
  | [] => (s, false, [])
  | q :: rest =>
    match q with
    | .item t =>
        if t.cancelled then (s, true, rest)
        else task_scheduler_run (s.schedule t) rest
    | .sentinel => (s, true, rest)

/-! ### Worker-side dispatch loop -/

/-- The `while` guard of `worker_get_next_task`:
`not task_limit or next(counter) < task_limit`, with `counter` having
yielded `c` values so far. -/
def workerLoopGuard (task_limit c : Nat) : Bool :=
  task_limit == 0 || c < task_limit

/-- Number of tasks `worker_get_next_task` yields within `fuel` loop
iterations, when the counter has already produced `c` values: one yield per
iteration whose guard passes, stopping at the first failing guard. -/
def worker_yields (task_limit : Nat) : Nat → Nat → Nat
  | _, 0 => 0
  | c, fuel + 1 =>
      if workerLoopGuard task_limit c then worker_yields task_limit (c + 1) fuel + 1
      else 0

/-- Outcome of one channel fetch inside the worker's loop: a `NewTask`
received (and acknowledged) under the lock, or an `EOFError` /
`EnvironmentError` carrying the underlying error's code (`errno`). -/
inductive FetchRes where
  | task (tid : Nat) (payload : Meta)
  | chanError (code : Int)
deriving DecidableEq

/-- How a modelled worker-process run ends: the process exits with a code,
or it blocks forever waiting on the channel (the script ran out). -/
inductive WorkerOutcome where
  | exited (code : Int)
  | blocked
deriving DecidableEq

/-- Worker parameters reaching `worker_process`, as used by it: whether an
initializer / deinitializer is configured and whether it succeeds, and the
task limit. -/
structure WorkerParams where
  hasInitializer : Bool
  initOk : Bool
  task_limit : Nat
  hasDeinitializer : Bool
  deinitOk : Bool
deriving DecidableEq

/-- The worker's `for task in worker_get_next_task(...)` loop over a script
of fetch outcomes: while the guard passes, fetch; a received task is
executed and its `Results` sent (we record the task id); a channel error
makes `worker_process` return `error.errno`.  Modelled from the spec: the
process-spawn decorator wrapping `worker_process` is outside the pool
module, and per the spec the worker then exits with that underlying error
code; a normal end of the loop reaches the deinitializer and
`os._exit(os.EX_OK)`, and a failing deinitializer also exits `os.EX_OK`. -/
def worker_loop (params : WorkerParams) : Nat → List FetchRes → List Nat →
    WorkerOutcome × List Nat
  | c, script, sent =>
    if workerLoopGuard params.task_limit c then
      match script with
      | [] => (.blocked, sent)
      | .task tid _ :: rest => worker_loop params (c + 1) rest (sent ++ [tid])
      | .chanError code :: _ => (.exited code, sent)
    else (.exited 0, sent)
  termination_by _ script _ => script.length

/-- `worker_process` over a fetch script: a configured initializer that fails
exits `os.EX_OK` before any task is taken; otherwise the dispatch loop
runs. -/
def worker_process_run (params : WorkerParams) (script : List FetchRes) :
    WorkerOutcome × List Nat :=
  if params.hasInitializer && !params.initOk then (.exited 0, [])
  else worker_loop params 0 script []

/-! ### Pool constructor surface -/

/-- The parameters accepted by `Pool.__init__` (its signature, `self`
aside): `workers=1, task_limit=0, queue=None, queueargs=None,
initializer=None, initargs=()`. -/
def poolInitParams : List String :=
  ["workers", "task_limit", "queue", "queueargs", "initializer", "initargs"]

/-- The construction parameters the specification claims the constructor
accepts (its \x7bworkers, task_limit, queue factory, initializer and
arguments, deinitializer and arguments\x7d list, with the parameter names
the code uses for the ones that exist). -/
def specClaimedInitParams : List String :=
  ["workers", "task_limit", "queue", "queueargs", "initializer", "initargs",
   "deinitializer", "deinitargs"]

/-! ### Well-formedness of the registries

A Python dict cannot hold two entries with the same key, and both
registries key each record by a value determined by the record itself
(`id(task)` for tasks, `worker.pid` for workers), so every state actually
reachable satisfies these predicates. -/

/-- The Task Registry is keyed by `id(task)` with distinct keys. -/
def WFtasks (d : List (Nat × STask)) : Prop :=
  (dictKeys d).Nodup ∧ ∀ e ∈ d, e.2.tid = e.1

/-- The Worker Registry is keyed by PID with distinct keys, and fresh PIDs
are larger than every key in use. -/
def WFworkers (s : WorkerManagerS) : Prop :=
  (dictKeys s.workers).Nodup ∧ (∀ e ∈ s.workers, e.2.pid = e.1) ∧
    ∀ k ∈ dictKeys s.workers, k < s.nextPid

/-- Every fold step used by `update_tasks` and `update_workers` either leaves
the `TaskManager` unchanged or performs one `task_done`. -/
def TaskDoneStep {β : Type} (step : TaskManagerS → β → TaskManagerS) : Prop :=
  ∀ m a, step m a = m ∨ ∃ tid r, step m a = m.task_done tid r

/-! ### Concrete instances used to evaluate the statements below -/

/-- A registered, not-yet-started task with id 5. -/
def wTask1 : STask := ⟨5, 0, false, 0, false, .payload [1]⟩

/-- A Task Registry holding exactly `wTask1`. -/
def wTM1 : TaskManagerS := ⟨[(5, wTask1)], [], 0⟩

/-- A started task with a negative (hence truthy) timeout. -/
def cexTask : STask := ⟨1, -1, true, 0, false, .worker 7⟩

/-- A Task Registry holding exactly `cexTask`. -/
def cexTM : TaskManagerS := ⟨[(1, cexTask)], [], 0⟩

/-- A started task with timeout 1 begun at time 0. -/
def goodTask : STask := ⟨2, 1, true, 0, false, .worker 3⟩

/-- A Task Registry holding exactly `goodTask`. -/
def goodTM : TaskManagerS := ⟨[(2, goodTask)], [], 0⟩

/-- The task carried by a queue item, if it is one. -/
def getTask : QItem → Option STask
  | .item t => some t
  | .sentinel => none

/-- A live (non-cancelled) task submitted to the queue. -/
def wLiveTask : STask := ⟨11, 0, false, 0, false, .payload [2]⟩

/-- A task cancelled before dispatch. -/
def wCancTask : STask := ⟨12, 0, false, 0, true, .payload [3]⟩

/-- A queue carrying a live task, then the shutdown sentinel, then a task
the scheduler never reaches. -/
def wItems : List QItem := [.item wLiveTask, .sentinel, .item wCancTask]

/-- An empty pool-manager state with one configured worker. -/
def wPM0 : PoolManagerS := ⟨⟨[], [], 0⟩, ⟨[], 1, [], [], 0⟩, []⟩

/-- A started, cancelled task with timeout 1 begun at time 0, whose worker
tag is PID 9. -/
def dualTask : STask := ⟨4, 1, true, 0, true, .worker 9⟩

/-- A pool-manager state registering exactly `dualTask`. -/
def dualPM : PoolManagerS := ⟨⟨[(4, dualTask)], [], 0⟩, ⟨[], 1, [], [], 0⟩, []⟩

/-- A freshly registered task whose metadata still holds its payload. -/
def pTask : STask := ⟨8, 0, false, 0, false, .payload [5]⟩

/-- A Task Registry holding exactly `pTask`. -/
def wTM2 : TaskManagerS := ⟨[(8, pTask)], [], 0⟩

/-- An empty worker-manager state with one configured worker. -/
def wWM0 : WorkerManagerS := ⟨[], 1, [], [], 0⟩

/-- Worker parameters: no initializer, no deinitializer, no task limit. -/
def wParams : WorkerParams := ⟨false, true, 0, false, true⟩

/-- A channel script: one task is fetched, then the channel fails with
error code 5. -/
def wScript : List FetchRes := [.task 1 (.payload [0]), .chanError 5]

/-- A worker registry holding one dead worker, PID 6, exit code 5. -/
def wWMdead : WorkerManagerS := ⟨[(6, ⟨6, false, 5⟩)], 1, [], [], 7⟩

/-- A started task tagged with worker PID 6. -/
def expTask : STask := ⟨3, 0, true, 0, false, .worker 6⟩

/-- A pool-manager state with `expTask` registered and the dead worker
registry `wWMdead`. -/
def expPM : PoolManagerS := ⟨⟨[(3, expTask)], [], 0⟩, wWMdead, []⟩

/-! ### Dictionary lemmas -/

theorem dictKeys_def {α : Type} (d : List (Nat × α)) :
    dictKeys d = d.map Prod.fst := rfl

theorem dictValues_def {α : Type} (d : List (Nat × α)) :
    dictValues d = d.map Prod.snd := rfl

theorem dictKeys_cons {α : Type} (e : Nat × α) (d : List (Nat × α)) :
    dictKeys (e :: d) = e.1 :: dictKeys d := rfl

theorem dictLookup_eq_none {α : Type} (d : List (Nat × α)) (k : Nat) :
    dictLookup d k = none ↔ k ∉ dictKeys d := by
  induction d with
  | nil => simp [dictLookup, dictKeys]
  | cons e rest ih =>
      rw [dictKeys_cons, List.mem_cons, dictLookup]
      by_cases h : e.1 = k
      · simp [h]
      · have hk : ¬k = e.1 := fun heq => h heq.symm
        simp [h, hk, ih]

theorem dictLookup_mem {α : Type} {d : List (Nat × α)} {k : Nat} {v : α}
    (h : dictLookup d k = some v) : (k, v) ∈ d := by
  induction d with
  | nil => simp [dictLookup] at h
  | cons e rest ih =>
      by_cases he : e.1 = k
      · rw [dictLookup, if_pos he] at h
        have : e = (k, v) := by
          cases e
          simp_all
        exact this ▸ List.mem_cons_self _ _
      · rw [dictLookup, if_neg he] at h
        exact List.mem_cons_of_mem _ (ih h)

theorem mem_dictLookup {α : Type} {d : List (Nat × α)} {k : Nat} {v : α}
    (hnd : (dictKeys d).Nodup) (h : (k, v) ∈ d) : dictLookup d k = some v := by
  induction d with
  | nil => simp at h
  | cons e rest ih =>
      rw [dictKeys_cons] at hnd
      have hnd' := List.nodup_cons.mp hnd
      rcases List.mem_cons.mp h with h | h
      · subst h; simp [dictLookup]
      · have hk : e.1 ≠ k := by
          intro heq
          apply hnd'.1
          rw [heq, dictKeys_def]
          exact List.mem_map_of_mem Prod.fst h
        rw [dictLookup, if_neg hk]
        exact ih hnd'.2 h

theorem mem_values_of_lookup {α : Type} {d : List (Nat × α)} {k : Nat} {v : α}
    (h : dictLookup d k = some v) : v ∈ dictValues d :=
  List.mem_map_of_mem Prod.snd (dictLookup_mem h)

theorem dictRemove_sublist {α : Type} (d : List (Nat × α)) (k : Nat) :
    (dictRemove d k).Sublist d := by
  induction d with
  | nil => simp [dictRemove]
  | cons e rest ih =>
      by_cases h : e.1 = k
      · rw [dictRemove, if_pos h]
        exact List.sublist_cons_self e rest
      · rw [dictRemove, if_neg h]
        exact List.Sublist.cons₂ e ih

theorem dictRemove_keys_nodup {α : Type} {d : List (Nat × α)} (k : Nat)
    (hnd : (dictKeys d).Nodup) : (dictKeys (dictRemove d k)).Nodup := by
  rw [dictKeys_def] at hnd ⊢
  exact List.Nodup.sublist (List.Sublist.map Prod.fst (dictRemove_sublist d k)) hnd

theorem dictRemove_lookup_self {α : Type} {d : List (Nat × α)} {k : Nat}
    (hnd : (dictKeys d).Nodup) : dictLookup (dictRemove d k) k = none := by
  induction d with
  | nil => rfl
  | cons e rest ih =>
      rw [dictKeys_cons] at hnd
      have hnd' := List.nodup_cons.mp hnd
      by_cases h : e.1 = k
      · rw [dictRemove, if_pos h, dictLookup_eq_none]
        subst h
        exact hnd'.1
      · rw [dictRemove, if_neg h, dictLookup, if_neg h]
        exact ih hnd'.2

theorem dictRemove_lookup_other {α : Type} (d : List (Nat × α)) {k k' : Nat}
    (h : k' ≠ k) : dictLookup (dictRemove d k) k' = dictLookup d k' := by
  induction d with
  | nil => rfl
  | cons e rest ih =>
      by_cases he : e.1 = k
      · have he' : ¬e.1 = k' := fun heq => h (he ▸ heq.symm)
        rw [dictRemove, if_pos he, dictLookup, if_neg he']
      · rw [dictRemove, if_neg he, dictLookup, dictLookup]
        by_cases he' : e.1 = k'
        · rw [if_pos he', if_pos he']
        · rw [if_neg he', if_neg he', ih]

theorem dictLookup_none_remove {α : Type} {d : List (Nat × α)} {x : Nat}
    (h : dictLookup d x = none) (k : Nat) :
    dictLookup (dictRemove d k) x = none := by
  rw [dictLookup_eq_none, dictKeys_def] at h ⊢
  intro hmem
  exact h (((dictRemove_sublist d k).map Prod.fst).subset hmem)

theorem dictSet_lookup_self {α : Type} (d : List (Nat × α)) (k : Nat) (v : α) :
    dictLookup (dictSet d k v) k = some v := by
  induction d with
  | nil => simp [dictSet, dictLookup]
  | cons e rest ih =>
      by_cases h : e.1 = k
      · rw [dictSet, if_pos h, dictLookup, if_pos rfl]
      · rw [dictSet, if_neg h, dictLookup, if_neg h]
        exact ih

theorem dictSet_lookup_other {α : Type} (d : List (Nat × α)) {k k' : Nat}
    (h : k' ≠ k) (v : α) : dictLookup (dictSet d k v) k' = dictLookup d k' := by
  have hk : ¬k = k' := fun heq => h heq.symm
  induction d with
  | nil => simp [dictSet, dictLookup, hk]
  | cons e rest ih =>
      by_cases he : e.1 = k
      · rw [dictSet, if_pos he, dictLookup, if_neg hk, dictLookup,
            if_neg (fun heq => hk (he ▸ heq))]
      · rw [dictSet, if_neg he, dictLookup, dictLookup]
        by_cases he' : e.1 = k'
        · rw [if_pos he', if_pos he']
        · rw [if_neg he', if_neg he', ih]

theorem dictSet_append_of_not_mem {α : Type} {d : List (Nat × α)} {k : Nat}
    (h : k ∉ dictKeys d) (v : α) : dictSet d k v = d ++ [(k, v)] := by
  induction d with
  | nil => rfl
  | cons e rest ih =>
      rw [dictKeys_cons, List.mem_cons] at h
      have he : e.1 ≠ k := fun heq => h (Or.inl heq.symm)
      rw [dictSet, if_neg he, List.cons_append,
          ih (fun hm => h (Or.inr hm))]

/-! ### TaskManager lemmas -/

theorem task_done_of_lookup {s : TaskManagerS} {tid : Nat} {t : STask} (r : TResult)
    (h : dictLookup s.tasks tid = some t) :
    s.task_done tid r =
      ⟨dictRemove s.tasks tid, s.resolved ++ [(tid, r)], s.doneCallbacks + 1⟩ := by
  unfold TaskManagerS.task_done
  rw [h]

theorem task_done_of_none {s : TaskManagerS} {tid : Nat} (r : TResult)
    (h : dictLookup s.tasks tid = none) : s.task_done tid r = s := by
  unfold TaskManagerS.task_done
  rw [h]

theorem task_done_lookup_none {s : TaskManagerS} {x : Nat}
    (h : dictLookup s.tasks x = none) (tid : Nat) (r : TResult) :
    dictLookup (s.task_done tid r).tasks x = none := by
  unfold TaskManagerS.task_done
  cases hl : dictLookup s.tasks tid with
  | none => simpa using h
  | some t => simpa using dictLookup_none_remove h tid

theorem task_done_tasks_sublist (s : TaskManagerS) (tid : Nat) (r : TResult) :
    (s.task_done tid r).tasks.Sublist s.tasks := by
  unfold TaskManagerS.task_done
  cases hl : dictLookup s.tasks tid with
  | none => simp
  | some t => simpa using dictRemove_sublist s.tasks tid

theorem task_done_wf {s : TaskManagerS} (h : WFtasks s.tasks) (tid : Nat)
    (r : TResult) : WFtasks (s.task_done tid r).tasks := by
  constructor
  · have h1 := h.1
    rw [dictKeys_def] at h1 ⊢
    exact List.Nodup.sublist ((task_done_tasks_sublist s tid r).map Prod.fst) h1
  · exact fun e he => h.2 e ((task_done_tasks_sublist s tid r).subset he)

theorem fold_absent {β : Type} {step : TaskManagerS → β → TaskManagerS}
    (hstep : TaskDoneStep step) :
    ∀ (L : List β) (m : TaskManagerS) {x : Nat},
      dictLookup m.tasks x = none →
      dictLookup (L.foldl step m).tasks x = none ∧
        ∀ r', ((x, r') ∈ (L.foldl step m).resolved ↔ (x, r') ∈ m.resolved) := by
  intro L
  induction L with
  | nil =>
      intro m x hx
      exact ⟨hx, fun r' => Iff.rfl⟩
  | cons a L' ih =>
      intro m x hx
      rw [List.foldl_cons]
      rcases hstep m a with hid | ⟨tid, r, htd⟩
      · rw [hid]
        exact ih m hx
      · rw [htd]
        cases hl : dictLookup m.tasks tid with
        | none =>
            rw [task_done_of_none r hl]
            exact ih m hx
        | some t =>
            have htid : tid ≠ x := by
              intro heq
              rw [heq, hx] at hl
              exact Option.noConfusion hl
            rw [task_done_of_lookup r hl]
            have hx' : dictLookup (dictRemove m.tasks tid) x = none :=
              dictLookup_none_remove hx tid
            rcases ih ⟨dictRemove m.tasks tid, m.resolved ++ [(tid, r)],
                m.doneCallbacks + 1⟩ hx' with ⟨h1, h2⟩
            refine ⟨h1, fun r' => (h2 r').trans ?_⟩
            have htid' : ¬x = tid := fun heq => htid heq.symm
            simp [htid']

theorem fold_resolved_mono {β : Type} {step : TaskManagerS → β → TaskManagerS}
    (hstep : TaskDoneStep step) :
    ∀ (L : List β) (m : TaskManagerS),
      ∃ l, (L.foldl step m).resolved = m.resolved ++ l := by
  intro L
  induction L with
  | nil => exact fun _ => ⟨[], by simp⟩
  | cons a L' ih =>
      intro m
      rw [List.foldl_cons]
      rcases hstep m a with hid | ⟨tid, r, htd⟩
      · rw [hid]; exact ih m
      · rw [htd]
        cases hl : dictLookup m.tasks tid with
        | none =>
            rw [task_done_of_none r hl]
            exact ih m
        | some t =>
            rw [task_done_of_lookup r hl]
            rcases ih ⟨dictRemove m.tasks tid, m.resolved ++ [(tid, r)],
                m.doneCallbacks + 1⟩ with ⟨l, hl'⟩
            exact ⟨(tid, r) :: l, by simpa using hl'⟩

theorem task_done_step (r : TResult) :
    TaskDoneStep (fun (m : TaskManagerS) (t : STask) => m.task_done t.tid r) :=
  fun _ t => Or.inr ⟨t.tid, r, rfl⟩

/-- Full characterization of a `task_done` fold over pairwise-distinct,
all-registered tasks: each is resolved with `r`, removed from the registry,
and the callback fires once per task. -/
theorem task_done_fold_all (r : TResult) :
    ∀ (L : List STask) (m : TaskManagerS),
      (dictKeys m.tasks).Nodup →
      L.Pairwise (fun a b => a.tid ≠ b.tid) →
      (∀ u ∈ L, dictLookup m.tasks u.tid = some u) →
      (L.foldl (fun m t => m.task_done t.tid r) m).resolved
          = m.resolved ++ L.map (fun t => (t.tid, r)) ∧
      (∀ u ∈ L,
        dictLookup (L.foldl (fun m t => m.task_done t.tid r) m).tasks u.tid = none) ∧
      (L.foldl (fun m t => m.task_done t.tid r) m).doneCallbacks
          = m.doneCallbacks + L.length := by
  intro L
  induction L with
  | nil => exact fun m _ _ _ => ⟨by simp, by simp, by simp⟩
  | cons u L' ih =>
      intro m hnd hpw hreg
      have hu : dictLookup m.tasks u.tid = some u := hreg u (List.mem_cons_self u L')
      have hpw' := List.pairwise_cons.mp hpw
      set m' : TaskManagerS := ⟨dictRemove m.tasks u.tid,
        m.resolved ++ [(u.tid, r)], m.doneCallbacks + 1⟩ with hm'
      have hstep : m.task_done u.tid r = m' := task_done_of_lookup r hu
      have hnd' : (dictKeys m'.tasks).Nodup := dictRemove_keys_nodup u.tid hnd
      have hreg' : ∀ v ∈ L', dictLookup m'.tasks v.tid = some v := by
        intro v hv
        have hne : v.tid ≠ u.tid := (hpw'.1 v hv).symm
        rw [hm']
        rw [dictRemove_lookup_other m.tasks hne]
        exact hreg v (List.mem_cons_of_mem u hv)
      rcases ih m' hnd' hpw'.2 hreg' with ⟨h1, h2, h3⟩
      rw [List.foldl_cons, hstep]
      refine ⟨by simpa using h1, ?_, by simp [h3]; omega⟩
      intro v hv
      rcases List.mem_cons.mp hv with hv | hv
      · subst hv
        have hx : dictLookup m'.tasks v.tid = none := by
          rw [hm']
          exact dictRemove_lookup_self hnd
        exact (fold_absent (task_done_step r) L' m' hx).1
      · exact h2 v hv

/-! ### Helper characterizations -/

theorem hasTimeout_iff (now : Time) (t : STask) :
    hasTimeout now t = true ↔
      t.timeout ≠ 0 ∧ t.started = true ∧ now - t.timestamp > t.timeout := by
  by_cases h : t.timeout ≠ 0 ∧ t.started = true
  · unfold hasTimeout
    rw [if_pos h]
    simp [h.1, h.2]
  · unfold hasTimeout
    rw [if_neg h]
    simp only [Bool.false_eq_true, false_iff]
    intro hc
    exact h ⟨hc.1, hc.2.1⟩

/-! ### Claim C1 -/

/-- C1: the first `task_done` call with a registered id sets the task's
results, invokes the queue's task-done callback, and removes the entry from
the Task Registry; a `task_done` call with an unregistered id is a no-op
that changes no state, and a repeated call with the same id after a
successful one changes nothing, so each task is resolved at most once. -/
theorem task_done_resolves_exactly_once (s : TaskManagerS) (tid : Nat)
    (t : STask) (r r' : TResult) (hnd : (dictKeys s.tasks).Nodup) :
    (dictLookup s.tasks tid = some t →
      (s.task_done tid r).resolved = s.resolved ++ [(tid, r)] ∧
      (s.task_done tid r).doneCallbacks = s.doneCallbacks + 1 ∧
      dictLookup (s.task_done tid r).tasks tid = none) ∧
    (dictLookup s.tasks tid = none → s.task_done tid r = s) ∧
    (s.task_done tid r).task_done tid r' = s.task_done tid r := by
  refine ⟨?_, fun h => task_done_of_none r h, ?_⟩
  · intro h
    rw [task_done_of_lookup r h]
    exact ⟨rfl, rfl, dictRemove_lookup_self hnd⟩
  · cases hl : dictLookup s.tasks tid with
    | none =>
        rw [task_done_of_none r hl]
        exact task_done_of_none r' hl
    | some u =>
        have habs : dictLookup (s.task_done tid r).tasks tid = none := by
          rw [task_done_of_lookup r hl]
          exact dictRemove_lookup_self hnd
        exact task_done_of_none r' habs

/-- C1 witness: evaluating the theorem on a concrete one-task registry. -/
theorem task_done_resolves_exactly_once_witness :
    (wTM1.task_done 5 (.value [2])).resolved = [] ++ [(5, .value [2])] ∧
      (wTM1.task_done 5 (.value [2])).task_done 5 (.value [3])
        = wTM1.task_done 5 (.value [2]) := by
  have h := task_done_resolves_exactly_once wTM1 5 wTask1
    (.value [2]) (.value [3]) (by decide)
  exact ⟨(h.1 rfl).1, h.2.2⟩

/-! ### Claim C2 (corrected) -/

/-- C2 counterexample: `inspect_tasks` classifies `cexTask`, whose timeout
is negative (truthy in Python but not positive), as timed out, refuting the
claim that classification happens exactly when the timeout is positive. -/
theorem inspect_tasks_negative_timeout_cx :
    cexTask ∈ (cexTM.inspect_tasks 1).1 ∧ ¬(0 < cexTask.timeout) := by
  constructor
  · show cexTask ∈ (dictValues cexTM.tasks).filter (fun t => hasTimeout 1 t)
    have h : hasTimeout 1 cexTask = true := by
      rw [hasTimeout_iff]
      exact ⟨by norm_num [cexTask], rfl, by norm_num [cexTask]⟩
    rw [show dictValues cexTM.tasks = [cexTask] from rfl, List.filter_cons, if_pos]
    · exact List.mem_cons_self _ _
    · simp [h]
  · norm_num [cexTask]

/-- C2 (amended): `inspect_tasks` classifies a registered task as timed out
exactly when it is started, its timeout is nonzero (truthy), and the
current time minus its start timestamp strictly exceeds the timeout; a task
that has not started is never classified as timed out. -/
theorem inspect_tasks_timeout_classification (s : TaskManagerS) (now : Time)
    (t : STask) :
    (t ∈ (s.inspect_tasks now).1 ↔
      t ∈ dictValues s.tasks ∧ t.started = true ∧ t.timeout ≠ 0 ∧
        now - t.timestamp > t.timeout) ∧
    (t.started = false → t ∉ (s.inspect_tasks now).1) := by
  have hmem : t ∈ (s.inspect_tasks now).1 ↔
      t ∈ dictValues s.tasks ∧ hasTimeout now t = true := by
    unfold TaskManagerS.inspect_tasks
    exact List.mem_filter
  constructor
  · rw [hmem, hasTimeout_iff]
    tauto
  · intro hns hmem'
    rw [hmem, hasTimeout_iff] at hmem'
    rw [hns] at hmem'
    simp at hmem'

/-- C2 witness: the amended classification evaluated on a concrete started
task with timeout 1 inspected at time 10. -/
theorem inspect_tasks_timeout_classification_witness :
    goodTask ∈ (goodTM.inspect_tasks 10).1 := by
  have h := inspect_tasks_timeout_classification goodTM 10 goodTask
  exact h.1.mpr ⟨List.mem_singleton_self goodTask, rfl,
    by norm_num [goodTask], by norm_num [goodTask]⟩

/-! ### Claim C8 (corrected) -/

/-- C8 counterexample: the `Pool` constructor signature has no
`deinitializer` (or `deinitargs`) parameter, though the spec's construction
parameter list claims one. -/
theorem pool_init_no_deinitializer_cx :
    "deinitializer" ∉ poolInitParams ∧ "deinitargs" ∉ poolInitParams ∧
      "deinitializer" ∈ specClaimedInitParams := by decide

/-- C8 (amended): the `Pool` constructor accepts `workers`, `task_limit`,
the custom submission queue factory (`queue` with `queueargs`), and
`initializer` with its `initargs`; it accepts no deinitializer. -/
theorem pool_init_params_amended :
    "workers" ∈ poolInitParams ∧ "task_limit" ∈ poolInitParams ∧
    "queue" ∈ poolInitParams ∧ "queueargs" ∈ poolInitParams ∧
    "initializer" ∈ poolInitParams ∧ "initargs" ∈ poolInitParams ∧
    "deinitializer" ∉ poolInitParams := by decide

/-! ### Claim C3 -/

/-- C3: over any queue contents, the scheduler loop schedules exactly the
non-cancelled tasks of the longest live prefix (in order, via
`PoolManager.schedule`), acknowledges the queue precisely when it meets a
sentinel or cancelled item, stops there leaving the rest of the queue
untaken, and never schedules a cancelled task or the sentinel. -/
theorem task_scheduler_loop_contract (s : PoolManagerS) (items : List QItem) :
    (task_scheduler_run s items).1
        = ((items.takeWhile liveItem).filterMap getTask).foldl PoolManagerS.schedule s ∧
    (task_scheduler_run s items).2.1 = items.any (fun q => !liveItem q) ∧
    (task_scheduler_run s items).2.2 = (items.dropWhile liveItem).drop 1 ∧
    ∀ t ∈ (items.takeWhile liveItem).filterMap getTask, t.cancelled = false := by
  induction items generalizing s with
  | nil => simp [task_scheduler_run]
  | cons q rest ih =>
      cases q with
      | sentinel =>
          simp [task_scheduler_run, liveItem, List.takeWhile_cons,
            List.dropWhile_cons, getTask]
      | item t =>
          by_cases hc : t.cancelled
          · simp [task_scheduler_run, hc, liveItem, List.takeWhile_cons,
              List.dropWhile_cons]
          · have h := ih (s.schedule t)
            simp [task_scheduler_run, hc, liveItem, List.takeWhile_cons,
              List.dropWhile_cons, getTask] at h ⊢
            exact ⟨h.1, h.2.1, h.2.2.1, h.2.2.2⟩

/-- C3 witness: on a concrete queue `[live task, sentinel, another task]`,
the scheduler schedules the live task, acknowledges, and leaves the tail. -/
theorem task_scheduler_loop_contract_witness :
    (task_scheduler_run wPM0 wItems).2.1 = true ∧
    (task_scheduler_run wPM0 wItems).2.2 = [QItem.item wCancTask] ∧
    (task_scheduler_run wPM0 wItems).1 = wPM0.schedule wLiveTask := by
  have h := task_scheduler_loop_contract wPM0 wItems
  exact ⟨h.2.1.trans rfl, h.2.2.1.trans rfl, h.1.trans rfl⟩

/-! ### Claim C4 -/

/-- C4: `schedule` first inserts the task into the Task Registry and only
then writes the `NewTask` message onto the pool-side channel: the task
manager of the scheduled state is exactly `register`'s result (so the entry
is present when `dispatch` runs), the channel gains the `NewTask` message at
the end, and the event log extends with registration strictly before the
send. -/
theorem schedule_registers_before_send (s : PoolManagerS) (t : STask) :
    (s.schedule t).tm = s.tm.register t ∧
    dictLookup (s.schedule t).tm.tasks t.tid = some t ∧
    (s.schedule t).wm.channel = s.wm.channel ++ [⟨t.tid, t.metadata⟩] ∧
    (s.schedule t).log
        = s.log ++ [PEvent.registered t.tid, PEvent.sentNewTask t.tid] := by
  refine ⟨rfl, ?_, rfl, by simp [PoolManagerS.schedule]⟩
  show dictLookup (dictSet s.tm.tasks t.tid t) t.tid = some t
  exact dictSet_lookup_self s.tm.tasks t.tid t

/-! ### Claim C6 -/

theorem worker_yields_min {K : Nat} (hK : 0 < K) :
    ∀ (fuel c : Nat), worker_yields K c fuel = min (K - c) fuel := by
  intro fuel
  induction fuel with
  | zero => intro c; simp [worker_yields]
  | succ n ih =>
      intro c
      by_cases h : workerLoopGuard K c = true
      · rw [worker_yields, if_pos h, ih (c + 1)]
        have hc : c < K := by
          simp [workerLoopGuard] at h
          rcases h with h | h
          · omega
          · exact h
        omega
      · rw [worker_yields, if_neg h]
        have hc : ¬c < K := by
          simp [workerLoopGuard] at h
          omega
        omega

theorem worker_yields_unbounded : ∀ (fuel c : Nat), worker_yields 0 c fuel = fuel := by
  intro fuel
  induction fuel with
  | zero => intro c; rfl
  | succ n ih =>
      intro c
      rw [worker_yields, if_pos (by simp [workerLoopGuard]), ih (c + 1)]

/-- C6: with `task_limit = K > 0` the dispatch-loop generator yields (hence
the worker fetches and executes) at most K tasks no matter how long it
runs, while with `task_limit = 0` it never stops of its own accord: within
any `fuel` iterations it yields `fuel` tasks. -/
theorem worker_task_limit_bound (K fuel : Nat) :
    (0 < K → worker_yields K 0 fuel ≤ K) ∧ worker_yields 0 0 fuel = fuel := by
  constructor
  · intro hK
    rw [worker_yields_min hK fuel 0]
    omega
  · exact worker_yields_unbounded fuel 0

/-- C6 witness: with task limit 3 and fuel 10 the loop yields at most 3
tasks; with task limit 0 it yields all 10. -/
theorem worker_task_limit_bound_witness :
    worker_yields 3 0 10 ≤ 3 ∧ worker_yields 0 0 10 = 10 :=
  ⟨(worker_task_limit_bound 3 10).1 (by decide), (worker_task_limit_bound 0 10).2⟩

/-! ### Values of a well-formed registry -/

theorem wf_values_pairwise {d : List (Nat × STask)} (h : WFtasks d) :
    (dictValues d).Pairwise (fun a b => a.tid ≠ b.tid) := by
  rw [dictValues_def, List.pairwise_map]
  have h1 : d.Pairwise (fun e f => e.1 ≠ f.1) := by
    have h0 := h.1
    rw [dictKeys_def] at h0
    exact List.pairwise_map.mp h0
  refine h1.imp_of_mem ?_
  intro a b ha hb hne
  rw [h.2 a ha, h.2 b hb]
  exact hne

theorem wf_values_nodup {d : List (Nat × STask)} (h : WFtasks d) :
    (dictValues d).Nodup :=
  (wf_values_pairwise h).imp (fun hne heq => hne (congrArg STask.tid heq))

theorem wf_lookup_of_mem_values {d : List (Nat × STask)} (h : WFtasks d)
    {t : STask} (ht : t ∈ dictValues d) : dictLookup d t.tid = some t := by
  rw [dictValues_def] at ht
  rcases List.mem_map.mp ht with ⟨e, he, het⟩
  have hk : e.1 = t.tid := by rw [← het]; exact (h.2 e he).symm
  have hmem : (t.tid, t) ∈ d := by
    have he' : e = (t.tid, t) := by
      rcases e with ⟨a, b⟩
      simp only [Prod.mk.injEq]
      exact ⟨hk, het⟩
    rwa [he'] at he
  exact mem_dictLookup h.1 hmem

/-! ### Stop-call folds -/

theorem stop_worker_calls (w : WorkerManagerS) (wid : Meta) :
    (w.stop_worker wid).stopCalls = w.stopCalls ++ [wid] := by
  unfold WorkerManagerS.stop_worker
  cases wid <;> rfl

theorem stop_fold_calls :
    ∀ (L : List STask) (w : WorkerManagerS),
      (L.foldl (fun w u => w.stop_worker u.metadata) w).stopCalls
        = w.stopCalls ++ L.map (fun u => u.metadata) := by
  intro L
  induction L with
  | nil => intro w; simp
  | cons u L' ih =>
      intro w
      rw [List.foldl_cons, ih, stop_worker_calls]
      simp

/-! ### Claim C9 -/

/-- C9: a registered task that is simultaneously timed out and
cancelled-after-start when `update_tasks` runs is resolved with the Timeout
error and with nothing else (the cancelled pass finds no registry entry),
and `stop_worker` is invoked with the task's worker tag once per inspection
list the task appears in: the stop-call log grows by the metadata of
`timeout ++ cancelled`, and the task occurs exactly once in each list. -/
theorem update_tasks_timeout_wins (s : PoolManagerS) (now : Time) (t : STask)
    (hwf : WFtasks s.tm.tasks)
    (hreg : dictLookup s.tm.tasks t.tid = some t)
    (hto : hasTimeout now t = true)
    (hst : t.started = true) (hc : t.cancelled = true)
    (hfresh : ∀ r, (t.tid, r) ∉ s.tm.resolved) :
    ((t.tid, TResult.timeoutError) ∈ (s.update_tasks now).tm.resolved) ∧
    (∀ r, r ≠ TResult.timeoutError →
      (t.tid, r) ∉ (s.update_tasks now).tm.resolved) ∧
    (s.update_tasks now).wm.stopCalls
        = s.wm.stopCalls
          ++ ((s.tm.inspect_tasks now).1 ++ (s.tm.inspect_tasks now).2).map
                (fun u => u.metadata) ∧
    (s.tm.inspect_tasks now).1.count t = 1 ∧
    (s.tm.inspect_tasks now).2.count t = 1 := by
  have hmemv : t ∈ dictValues s.tm.tasks := mem_values_of_lookup hreg
  have hTLmem : t ∈ (s.tm.inspect_tasks now).1 :=
    List.mem_filter.mpr ⟨hmemv, hto⟩
  have hCLmem : t ∈ (s.tm.inspect_tasks now).2 :=
    List.mem_filter.mpr ⟨hmemv, by simp [hst, hc]⟩
  set TL := (s.tm.inspect_tasks now).1 with hTL
  set CL := (s.tm.inspect_tasks now).2 with hCL
  have hval_pw := wf_values_pairwise hwf
  have hval_nd := wf_values_nodup hwf
  have hTLsub : TL.Sublist (dictValues s.tm.tasks) := List.filter_sublist _
  have hCLsub : CL.Sublist (dictValues s.tm.tasks) := List.filter_sublist _
  have hTLpw : TL.Pairwise (fun a b => a.tid ≠ b.tid) := hval_pw.sublist hTLsub
  have hTLreg : ∀ u ∈ TL, dictLookup s.tm.tasks u.tid = some u :=
    fun u hu => wf_lookup_of_mem_values hwf (hTLsub.subset hu)
  obtain ⟨h1, h2, _⟩ := task_done_fold_all TResult.timeoutError TL s.tm
    hwf.1 hTLpw hTLreg
  set tm1 := TL.foldl (fun m u => m.task_done u.tid TResult.timeoutError) s.tm
    with htm1
  have habs : dictLookup tm1.tasks t.tid = none := h2 t hTLmem
  have hupd : s.update_tasks now =
      { s with
        tm := CL.foldl (fun m u => m.task_done u.tid TResult.taskCancelled) tm1,
        wm := (TL ++ CL).foldl (fun w u => w.stop_worker u.metadata) s.wm } := rfl
  refine ⟨?_, ?_, ?_, ?_, ?_⟩
  · rw [hupd]
    obtain ⟨l, hl⟩ := fold_resolved_mono (task_done_step TResult.taskCancelled) CL tm1
    show (t.tid, TResult.timeoutError) ∈
      (CL.foldl (fun m u => m.task_done u.tid TResult.taskCancelled) tm1).resolved
    rw [hl, h1]
    refine List.mem_append.mpr (Or.inl ?_)
    refine List.mem_append.mpr (Or.inr ?_)
    exact List.mem_map.mpr ⟨t, hTLmem, rfl⟩
  · intro r hr
    rw [hupd]
    intro hmem
    have hiff := (fold_absent (task_done_step TResult.taskCancelled) CL tm1
      habs).2 r
    have hmem1 : (t.tid, r) ∈ tm1.resolved := hiff.mp hmem
    rw [h1] at hmem1
    rcases List.mem_append.mp hmem1 with hmem1 | hmem1
    · exact hfresh r hmem1
    · rcases List.mem_map.mp hmem1 with ⟨u, _, hu⟩
      exact hr (congrArg Prod.snd hu).symm
  · rw [hupd]
    exact stop_fold_calls (TL ++ CL) s.wm
  · exact List.count_eq_one_of_mem (hval_nd.sublist hTLsub) hTLmem
  · exact List.count_eq_one_of_mem (hval_nd.sublist hCLsub) hCLmem

/-- C9 witness: a concrete task both timed out and cancelled at time 10 is
resolved with Timeout and never with Cancelled. -/
theorem update_tasks_timeout_wins_witness :
    ((4 : Nat), TResult.timeoutError) ∈ (dualPM.update_tasks 10).tm.resolved ∧
    ((4 : Nat), TResult.taskCancelled) ∉ (dualPM.update_tasks 10).tm.resolved := by
  have h := update_tasks_timeout_wins dualPM 10 dualTask
    ⟨by decide, by decide⟩ rfl
    (by
      rw [hasTimeout_iff]
      exact ⟨by norm_num [dualTask], rfl, by norm_num [dualTask]⟩)
    rfl rfl (by simp [dualPM])
  exact ⟨h.1, h.2.1 TResult.taskCancelled (by decide)⟩

/-! ### Claim C10 -/

theorem find_value_after_set :
    ∀ (d : List (Nat × STask)) {tid : Nat} {t : STask} (t' : STask) (m0 : Meta),
      dictLookup d tid = some t →
      (∀ u ∈ dictValues d, u.metadata ≠ m0) →
      t'.metadata = m0 →
      (dictValues (dictSet d tid t')).find? (fun u => u.metadata == m0)
        = some t' := by
  intro d
  induction d with
  | nil =>
      intro tid t t' m0 hreg _ _
      simp [dictLookup] at hreg
  | cons e rest ih =>
      intro tid t t' m0 hreg hnone hm
      by_cases he : e.1 = tid
      · rw [dictSet, if_pos he]
        have : (t'.metadata == m0) = true := by simp [hm]
        simp [dictValues, List.find?_cons, this]
      · rw [dictSet, if_neg he]
        have hmem0 : e.2 ∈ dictValues (e :: rest) :=
          List.mem_map_of_mem Prod.snd (List.mem_cons_self e rest)
        have hne : (e.2.metadata == m0) = false := by
          simp
          exact hnone e.2 hmem0
        rw [dictLookup, if_neg he] at hreg
        have hnone' : ∀ u ∈ dictValues rest, u.metadata ≠ m0 := by
          intro u hu
          refine hnone u ?_
          rw [dictValues_def] at hu ⊢
          exact List.mem_cons_of_mem _ hu
        have hrec := ih t' m0 hreg hnone' hm
        show (e.2 :: dictValues (dictSet rest tid t')).find?
          (fun u => u.metadata == m0) = some t'
        rw [List.find?_cons_of_neg _ (by simp [hne]), hrec]

/-- C10: a task record keeps its payload and its worker tag in the one
`_metadata` slot: `dispatch` sends that slot's current contents as the
`NewTask` payload; processing an Acknowledgement (`task_start`) overwrites
the same slot with the worker PID, after which the registry entry no longer
holds any payload; and `worker_id_lookup` finds the task by comparing that
same slot against the PID. -/
theorem metadata_single_slot (s : TaskManagerS) (wm : WorkerManagerS)
    (tid w : Nat) (t : STask) (now : Time)
    (hreg : dictLookup s.tasks tid = some t)
    (hnone : ∀ u ∈ dictValues s.tasks, u.metadata ≠ .worker w) :
    (wm.dispatch t).channel = wm.channel ++ [⟨t.tid, t.metadata⟩] ∧
    dictLookup (s.task_start tid w now).tasks tid
        = some { t with metadata := .worker w, timestamp := now, started := true } ∧
    (∀ u, dictLookup (s.task_start tid w now).tasks tid = some u →
      ∀ blob, u.metadata ≠ .payload blob) ∧
    worker_id_lookup (s.task_start tid w now) w
        = some { t with metadata := .worker w, timestamp := now, started := true } := by
  have hstart : (s.task_start tid w now).tasks = dictSet s.tasks tid
      { t with metadata := .worker w, timestamp := now, started := true } := by
    unfold TaskManagerS.task_start
    rw [hreg]
  refine ⟨rfl, ?_, ?_, ?_⟩
  · rw [hstart]
    exact dictSet_lookup_self ..
  · intro u hu blob
    rw [hstart, dictSet_lookup_self] at hu
    injection hu with hu
    subst hu
    intro hcontra
    exact Meta.noConfusion hcontra
  · unfold worker_id_lookup
    rw [hstart]
    exact find_value_after_set s.tasks _ (.worker w) hreg hnone rfl

/-- C10 witness: on a concrete registry, acknowledging task 8 from worker 3
at time 2 leaves PID 3 in the metadata slot, and PID lookup retrieves it. -/
theorem metadata_single_slot_witness :
    worker_id_lookup (wTM2.task_start 8 3 2) 3
      = some ({ pTask with metadata := .worker 3, timestamp := 2, started := true }) ∧
    (wWM0.dispatch pTask).channel = [⟨8, .payload [5]⟩] := by
  have h := metadata_single_slot wTM2 wWM0 8 3 pTask 2 rfl (by decide)
  exact ⟨h.2.2.2, h.1.trans rfl⟩

/-! ### Claim C7 -/

theorem worker_loop_error (params : WorkerParams) :
    ∀ (pre : List FetchRes) (cnt : Nat) (sent : List Nat) (code : Int)
      (rest : List FetchRes),
      (∀ f ∈ pre, ∃ tid p, f = FetchRes.task tid p) →
      (params.task_limit = 0 ∨ cnt + pre.length < params.task_limit) →
      (worker_loop params cnt (pre ++ .chanError code :: rest) sent).1
        = .exited code := by
  intro pre
  induction pre with
  | nil =>
      intro cnt sent code rest _ hlim
      have hg : workerLoopGuard params.task_limit cnt = true := by
        simp [workerLoopGuard]
        omega
      unfold worker_loop
      rw [if_pos hg]
      rfl
  | cons f pre' ih =>
      intro cnt sent code rest hpre hlim
      obtain ⟨tid, p, hf⟩ := hpre f (List.mem_cons_self _ _)
      subst hf
      have hg : workerLoopGuard params.task_limit cnt = true := by
        simp [workerLoopGuard]
        simp at hlim
        omega
      show (worker_loop params cnt
        (FetchRes.task tid p :: (pre' ++ .chanError code :: rest)) sent).1
          = .exited code
      unfold worker_loop
      rw [if_pos hg]
      exact ih (cnt + 1) (sent ++ [tid]) code rest
        (fun f hf => hpre f (List.mem_cons_of_mem _ hf))
        (by simp at hlim ⊢; omega)

theorem inspect_workers_reports {wm : WorkerManagerS} {p : Nat} {w : WorkerRec}
    (hmem : (p, w) ∈ wm.workers) (hpid : w.pid = p) (hdead : w.alive = false)
    (hcode : w.exitcode ≠ 0) :
    (p, w.exitcode) ∈ (wm.inspect_workers).1 := by
  unfold WorkerManagerS.inspect_workers
  refine List.mem_map.mpr ⟨w, ?_, by rw [hpid]⟩
  refine List.mem_filter.mpr ⟨List.mem_filter.mpr ⟨?_, by simp [hdead]⟩,
    by simpa using hcode⟩
  exact List.mem_map_of_mem Prod.snd hmem

/-- C7: if the worker's dispatch loop hits an EOF or I/O error on the
channel (after any number of fetched tasks within the task limit, the
initializer having succeeded), the worker process exits with the underlying
error's code; and a dead worker whose exit code is non-success is reported
by `inspect_workers` under its PID, which is what lets `update_workers`
resolve a task still tagged with that PID as ProcessExpired. -/
theorem worker_channel_error_exit (params : WorkerParams)
    (pre rest : List FetchRes) (code : Int)
    (hinit : params.hasInitializer = false ∨ params.initOk = true)
    (hpre : ∀ f ∈ pre, ∃ tid p, f = FetchRes.task tid p)
    (hlim : params.task_limit = 0 ∨ pre.length < params.task_limit) :
    (worker_process_run params (pre ++ .chanError code :: rest)).1
        = .exited code ∧
    ∀ (wm : WorkerManagerS) (p : Nat) (w : WorkerRec),
      (p, w) ∈ wm.workers → w.pid = p → w.alive = false →
      w.exitcode = code → code ≠ 0 →
      (p, code) ∈ (wm.inspect_workers).1 := by
  constructor
  · unfold worker_process_run
    have hb : (params.hasInitializer && !params.initOk) = false := by
      rcases hinit with h | h <;> simp [h]
    rw [hb]
    simp only [Bool.false_eq_true, if_false]
    refine worker_loop_error params pre 0 [] code rest hpre ?_
    rcases hlim with h | h
    · exact Or.inl h
    · right
      omega
  · intro wm p w hmem hpid hdead hcode hnz
    have hrep := inspect_workers_reports hmem hpid hdead (by rw [hcode]; exact hnz)
    rwa [hcode] at hrep

/-- C7 witness: a concrete worker fetches one task, then the channel fails
with code 5 and the process exits with code 5; a dead PID-6 worker with
exit code 5 is reported by inspection. -/
theorem worker_channel_error_exit_witness :
    (worker_process_run wParams wScript).1 = .exited 5 ∧
    ((6 : Nat), (5 : Int)) ∈ (wWMdead.inspect_workers).1 := by
  have h := worker_channel_error_exit wParams [.task 1 (.payload [0])] [] 5
    (Or.inl rfl)
    (by
      intro f hf
      rw [List.mem_singleton] at hf
      exact ⟨1, .payload [0], hf⟩)
    (Or.inl rfl)
  exact ⟨h.1, h.2 wWMdead 6 ⟨6, false, 5⟩ (by decide) rfl rfl rfl (by decide)⟩

/-! ### Claim C5: inspection reports -/

theorem mem_inspect_reports {wm : WorkerManagerS} {p : Nat} {c : Int} :
    (p, c) ∈ (wm.inspect_workers).1 ↔
      ∃ w ∈ dictValues wm.workers,
        w.alive = false ∧ w.pid = p ∧ w.exitcode = c ∧ c ≠ 0 := by
  unfold WorkerManagerS.inspect_workers
  constructor
  · intro h
    rcases List.mem_map.mp h with ⟨w, hw, heq⟩
    rcases List.mem_filter.mp hw with ⟨hw2, hc⟩
    rcases List.mem_filter.mp hw2 with ⟨hv, ha⟩
    have hp : w.pid = p := congrArg Prod.fst heq
    have hcc : w.exitcode = c := congrArg Prod.snd heq
    refine ⟨w, hv, by simpa using ha, hp, hcc, ?_⟩
    rw [← hcc]
    simpa using hc
  · rintro ⟨w, hv, ha, hp, hc, hnz⟩
    refine List.mem_map.mpr ⟨w, ?_, by rw [hp, hc]⟩
    refine List.mem_filter.mpr ⟨List.mem_filter.mpr ⟨hv, by simp [ha]⟩, ?_⟩
    rw [hc]
    simpa using hnz

theorem wf_workers_values_pairwise {wm : WorkerManagerS} (h : WFworkers wm) :
    (dictValues wm.workers).Pairwise (fun a b => a.pid ≠ b.pid) := by
  rw [dictValues_def, List.pairwise_map]
  have h1 : wm.workers.Pairwise (fun e f => e.1 ≠ f.1) := by
    have h0 := h.1
    rw [dictKeys_def] at h0
    exact List.pairwise_map.mp h0
  refine h1.imp_of_mem ?_
  intro a b ha hb hne
  rw [h.2.1 a ha, h.2.1 b hb]
  exact hne

theorem inspect_reports_pids_nodup {wm : WorkerManagerS} (hwf : WFworkers wm) :
    ((wm.inspect_workers).1.map Prod.fst).Nodup := by
  have hpw : (((dictValues wm.workers).filter (fun w => !w.alive)).filter
      (fun w => w.exitcode ≠ 0)).Pairwise (fun a b => a.pid ≠ b.pid) :=
    ((wf_workers_values_pairwise hwf).sublist (List.filter_sublist _)).sublist
      (List.filter_sublist _)
  show ((((dictValues wm.workers).filter (fun w => !w.alive)).filter
      (fun w => w.exitcode ≠ 0)).map (fun w => (w.pid, w.exitcode))
        |>.map Prod.fst).Nodup
  rw [List.map_map]
  exact List.pairwise_map.mpr hpw

/-! ### Claim C5: worker-id lookup -/

theorem worker_id_lookup_mem {m : TaskManagerS} {p : Nat} {t : STask}
    (h : worker_id_lookup m p = some t) :
    t ∈ dictValues m.tasks ∧ t.metadata = .worker p := by
  unfold worker_id_lookup at h
  refine ⟨List.mem_of_find?_eq_some h, ?_⟩
  have hm := List.find?_some h
  simpa using hm

theorem worker_id_lookup_finds {m : TaskManagerS} {p : Nat}
    (h : ∃ t ∈ dictValues m.tasks, t.metadata = .worker p) :
    ∃ t', worker_id_lookup m p = some t' := by
  unfold worker_id_lookup
  rcases h with ⟨t, hmem, hmeta⟩
  have hs : ((dictValues m.tasks).find? (fun u => u.metadata == .worker p)).isSome :=
    List.find?_isSome.mpr ⟨t, hmem, by simp [hmeta]⟩
  exact Option.isSome_iff_exists.mp hs

theorem wf_remove {d : List (Nat × STask)} (h : WFtasks d) (k : Nat) :
    WFtasks (dictRemove d k) :=
  ⟨dictRemove_keys_nodup k h.1, fun e he => h.2 e ((dictRemove_sublist d k).subset he)⟩

theorem values_remove_sublist {α : Type} (d : List (Nat × α)) (k : Nat) :
    (dictValues (dictRemove d k)).Sublist (dictValues d) :=
  (dictRemove_sublist d k).map Prod.snd

theorem expireStep_is_task_done : TaskDoneStep expireStep := by
  intro m pc
  unfold expireStep
  cases h : worker_id_lookup m pc.1 with
  | none => exact Or.inl rfl
  | some t => exact Or.inr ⟨t.tid, .processExpired pc.2, rfl⟩

/-- Soundness of the expiry fold: every resolution it adds is a
`ProcessExpired` for a reported `(pid, code)` pair, against a task that
carried that PID as worker tag. -/
theorem expire_fold_sound :
    ∀ (R : List (Nat × Int)) (m : TaskManagerS) (e : Nat × TResult),
      e ∈ (R.foldl expireStep m).resolved →
      e ∈ m.resolved ∨
        ∃ p c t, (p, c) ∈ R ∧ t ∈ dictValues m.tasks ∧ t.metadata = .worker p ∧
          e = (t.tid, .processExpired c) := by
  intro R
  induction R with
  | nil => exact fun m e h => Or.inl h
  | cons pc R' ih =>
      intro m e h
      rw [List.foldl_cons] at h
      cases hl : worker_id_lookup m pc.1 with
      | none =>
          have hstep : expireStep m pc = m := by
            unfold expireStep
            rw [hl]
          rw [hstep] at h
          rcases ih m e h with h | ⟨p, c, t, hR, ht, hmeta, he⟩
          · exact Or.inl h
          · exact Or.inr ⟨p, c, t, List.mem_cons_of_mem pc hR, ht, hmeta, he⟩
      | some t =>
          have hstep : expireStep m pc = m.task_done t.tid (.processExpired pc.2) := by
            unfold expireStep
            rw [hl]
          have hprops := worker_id_lookup_mem hl
          rw [hstep] at h
          cases hreg : dictLookup m.tasks t.tid with
          | none =>
              rw [task_done_of_none _ hreg] at h
              rcases ih m e h with h | ⟨p, c, u, hR, hu, hmeta, he⟩
              · exact Or.inl h
              · exact Or.inr ⟨p, c, u, List.mem_cons_of_mem pc hR, hu, hmeta, he⟩
          | some u =>
              rw [task_done_of_lookup _ hreg] at h
              rcases ih _ e h with h | ⟨p, c, u', hR, hu', hmeta, he⟩
              · rcases List.mem_append.mp h with h | h
                · exact Or.inl h
                · rw [List.mem_singleton] at h
                  exact Or.inr ⟨pc.1, pc.2, t, List.mem_cons_self pc R',
                    hprops.1, hprops.2, h⟩
              · refine Or.inr ⟨p, c, u', List.mem_cons_of_mem pc hR, ?_, hmeta, he⟩
                exact (values_remove_sublist m.tasks t.tid).subset hu'

/-- Completeness of the expiry fold: every reported dead PID that matches a
registered task's worker tag gets one such task resolved as
`ProcessExpired` with the reported code. -/
theorem expire_fold_complete :
    ∀ (R : List (Nat × Int)) (m : TaskManagerS) {p : Nat} {c : Int},
      WFtasks m.tasks →
      (R.map Prod.fst).Nodup →
      (p, c) ∈ R →
      (∃ t ∈ dictValues m.tasks, t.metadata = .worker p) →
      ∃ t, t ∈ dictValues m.tasks ∧ t.metadata = .worker p ∧
        (t.tid, .processExpired c) ∈ (R.foldl expireStep m).resolved := by
  intro R
  induction R with
  | nil =>
      intro m p c _ _ hR
      simp at hR
  | cons pc R' ih =>
      intro m p c hwf hnd hR hex
      rw [List.foldl_cons]
      rcases List.mem_cons.mp hR with hR | hR
      · obtain ⟨t', hfind⟩ := worker_id_lookup_finds (p := p) hex
        have hprops := worker_id_lookup_mem hfind
        have hreg : dictLookup m.tasks t'.tid = some t' :=
          wf_lookup_of_mem_values hwf hprops.1
        have hstep : expireStep m pc = m.task_done t'.tid (.processExpired c) := by
          unfold expireStep
          rw [← hR, hfind]
        rw [hstep, task_done_of_lookup _ hreg]
        obtain ⟨l, hl⟩ := fold_resolved_mono expireStep_is_task_done R'
          ⟨dictRemove m.tasks t'.tid, m.resolved ++ [(t'.tid, .processExpired c)],
            m.doneCallbacks + 1⟩
        refine ⟨t', hprops.1, hprops.2, ?_⟩
        rw [hl]
        refine List.mem_append.mpr (Or.inl ?_)
        exact List.mem_append.mpr (Or.inr (List.mem_singleton_self _))
      · have hp' : pc.1 ≠ p := by
          intro heq
          rw [List.map_cons] at hnd
          exact (List.nodup_cons.mp hnd).1
            (heq ▸ List.mem_map_of_mem Prod.fst hR)
        have hnd' : (R'.map Prod.fst).Nodup := by
          rw [List.map_cons] at hnd
          exact (List.nodup_cons.mp hnd).2
        cases hl : worker_id_lookup m pc.1 with
        | none =>
            have hstep : expireStep m pc = m := by
              unfold expireStep
              rw [hl]
            rw [hstep]
            exact ih m hwf hnd' hR hex
        | some t' =>
            have hprops := worker_id_lookup_mem hl
            have hreg : dictLookup m.tasks t'.tid = some t' :=
              wf_lookup_of_mem_values hwf hprops.1
            have hstep : expireStep m pc
                = m.task_done t'.tid (.processExpired pc.2) := by
              unfold expireStep
              rw [hl]
            rw [hstep, task_done_of_lookup _ hreg]
            obtain ⟨t, htv, htm⟩ := hex
            have htreg : dictLookup m.tasks t.tid = some t :=
              wf_lookup_of_mem_values hwf htv
            have hne : t.tid ≠ t'.tid := by
              intro heq
              rw [heq, hreg] at htreg
              injection htreg with htt
              apply hp'
              have := hprops.2
              rw [htt, htm] at this
              exact (Meta.worker.injEq .. ▸ this).symm
            set m' : TaskManagerS :=
              ⟨dictRemove m.tasks t'.tid,
                m.resolved ++ [(t'.tid, .processExpired pc.2)],
                m.doneCallbacks + 1⟩ with hm'
            have hwf' : WFtasks m'.tasks := wf_remove hwf t'.tid
            have htv' : t ∈ dictValues m'.tasks := by
              refine mem_values_of_lookup (k := t.tid) ?_
              rw [hm']
              show dictLookup (dictRemove m.tasks t'.tid) t.tid = some t
              rw [dictRemove_lookup_other m.tasks hne]
              exact htreg
            obtain ⟨u, huv, hum, humem⟩ := ih m' hwf' hnd' hR ⟨t, htv', htm⟩
            refine ⟨u, ?_, hum, humem⟩
            exact (values_remove_sublist m.tasks t'.tid).subset huv

/-! ### Claim C5: worker registry after inspection and top-up -/

theorem fold_remove_comm (e : Nat × WorkerRec) :
    ∀ (L : List WorkerRec) (d : List (Nat × WorkerRec)),
      (∀ w ∈ L, w.pid ≠ e.1) →
      L.foldl (fun ws w => dictRemove ws w.pid) (e :: d)
        = e :: L.foldl (fun ws w => dictRemove ws w.pid) d := by
  intro L
  induction L with
  | nil => intro d _; rfl
  | cons w L' ih =>
      intro d hne
      rw [List.foldl_cons, List.foldl_cons]
      have hrm : dictRemove (e :: d) w.pid = e :: dictRemove d w.pid := by
        rw [dictRemove,
          if_neg (fun heq => hne w (List.mem_cons_self w L') heq.symm)]
      rw [hrm]
      exact ih (dictRemove d w.pid) (fun u hu => hne u (List.mem_cons_of_mem _ hu))

theorem fold_remove_dead :
    ∀ (d : List (Nat × WorkerRec)),
      (dictKeys d).Nodup → (∀ e ∈ d, e.2.pid = e.1) →
      ((dictValues d).filter (fun w => !w.alive)).foldl
          (fun ws w => dictRemove ws w.pid) d
        = d.filter (fun e => e.2.alive) := by
  intro d
  induction d with
  | nil => intro _ _; rfl
  | cons e rest ih =>
      intro hnd hpid
      rw [dictKeys_cons] at hnd
      have hnd' := List.nodup_cons.mp hnd
      have hpid' : ∀ f ∈ rest, f.2.pid = f.1 :=
        fun f hf => hpid f (List.mem_cons_of_mem _ hf)
      have hkey : ∀ w ∈ (dictValues rest).filter (fun w => !w.alive),
          w.pid ≠ e.1 := by
        intro w hw heq
        have hwv : w ∈ dictValues rest := (List.mem_filter.mp hw).1
        rcases List.mem_map.mp hwv with ⟨f, hf, hfw⟩
        apply hnd'.1
        have : f.1 = e.1 := by
          rw [← hpid' f hf, hfw, heq]
        rw [← this, dictKeys_def]
        exact List.mem_map_of_mem Prod.fst hf
      have hvals : dictValues (e :: rest) = e.2 :: dictValues rest := rfl
      by_cases ha : e.2.alive
      · rw [hvals, List.filter_cons_of_neg (by simp [ha]),
          fold_remove_comm e _ rest hkey, ih hnd'.2 hpid',
          List.filter_cons_of_pos (by simpa using ha)]
      · have hae : e.2.alive = false := by
          cases hb : e.2.alive
          · rfl
          · exact absurd hb ha
        rw [hvals, List.filter_cons_of_pos (by simp [hae]), List.foldl_cons]
        have hrm : dictRemove (e :: rest) e.2.pid = rest := by
          rw [dictRemove, if_pos (hpid e (List.mem_cons_self e rest)).symm]
        rw [hrm, ih hnd'.2 hpid', List.filter_cons_of_neg (by simp [hae])]

theorem new_worker_effect {wm : WorkerManagerS}
    (hlt : ∀ k ∈ dictKeys wm.workers, k < wm.nextPid) :
    wm.new_worker.workers.length = wm.workers.length + 1 ∧
    ∀ k ∈ dictKeys wm.new_worker.workers, k < wm.new_worker.nextPid := by
  have hfresh : wm.nextPid ∉ dictKeys wm.workers :=
    fun h => lt_irrefl _ (hlt _ h)
  have hset : wm.new_worker.workers
      = wm.workers ++ [(wm.nextPid, ⟨wm.nextPid, true, 0⟩)] := by
    unfold WorkerManagerS.new_worker
    exact dictSet_append_of_not_mem hfresh _
  constructor
  · rw [hset]
    simp
  · intro k hk
    have hnp : wm.new_worker.nextPid = wm.nextPid + 1 := rfl
    rw [hset, dictKeys_def, List.map_append] at hk
    rw [hnp]
    rcases List.mem_append.mp hk with hk | hk
    · exact Nat.lt_succ_of_lt (hlt k hk)
    · rw [List.map_singleton, List.mem_singleton] at hk
      rw [hk]
      exact Nat.lt_succ_self _

theorem create_more :
    ∀ (n : Nat) (wm : WorkerManagerS),
      (∀ k ∈ dictKeys wm.workers, k < wm.nextPid) →
      ((List.range n).foldl (fun w _ => w.new_worker) wm).workers.length
          = wm.workers.length + n ∧
      ∀ k ∈ dictKeys ((List.range n).foldl (fun w _ => w.new_worker) wm).workers,
        k < ((List.range n).foldl (fun w _ => w.new_worker) wm).nextPid := by
  intro n
  induction n with
  | zero => intro wm hlt; exact ⟨rfl, hlt⟩
  | succ n ih =>
      intro wm hlt
      obtain ⟨hlen, hinv⟩ := ih wm hlt
      obtain ⟨hlen', hinv'⟩ := new_worker_effect hinv
      rw [List.range_succ, List.foldl_append, List.foldl_cons, List.foldl_nil]
      refine ⟨?_, hinv'⟩
      rw [hlen', hlen]
      omega

theorem create_workers_length {wm : WorkerManagerS}
    (hlt : ∀ k ∈ dictKeys wm.workers, k < wm.nextPid) :
    wm.create_workers.workers.length
      = max wm.workers.length wm.workersNumber := by
  unfold WorkerManagerS.create_workers
  rw [(create_more _ wm hlt).1]
  omega

theorem inspect_workers_wm {wm : WorkerManagerS} (hwf : WFworkers wm) :
    (wm.inspect_workers).2.workers = wm.workers.filter (fun e => e.2.alive) ∧
    (wm.inspect_workers).2.workersNumber = wm.workersNumber ∧
    (wm.inspect_workers).2.nextPid = wm.nextPid := by
  refine ⟨?_, rfl, rfl⟩
  show ((dictValues wm.workers).filter (fun w => !w.alive)).foldl
      (fun ws w => dictRemove ws w.pid) wm.workers
    = wm.workers.filter (fun e => e.2.alive)
  exact fold_remove_dead wm.workers hwf.1 hwf.2.1

/-- C5: `update_workers` resolves tasks with `ProcessExpired` exactly for
the dead workers with non-success exit codes whose PID matches the worker
tag of a registered task: every resolution it adds carries the exit code of
such a dead worker and hits a task tagged with its PID (so a worker that
exited with the success code, or stayed alive, never produces one), every
reported dead PID matching some registered task's tag does resolve such a
task, and afterwards the worker registry is topped up toward the configured
worker count (live workers are kept, and the total becomes the maximum of
the live count and the configured number). -/
theorem update_workers_expiry (s : PoolManagerS)
    (hwf : WFworkers s.wm) (hwft : WFtasks s.tm.tasks) :
    (∀ e ∈ (s.update_workers).tm.resolved,
      e ∈ s.tm.resolved ∨
        ∃ p c t, c ≠ 0 ∧
          (∃ w ∈ dictValues s.wm.workers,
            w.alive = false ∧ w.pid = p ∧ w.exitcode = c) ∧
          t ∈ dictValues s.tm.tasks ∧ t.metadata = .worker p ∧
          e = (t.tid, .processExpired c)) ∧
    (∀ p w, (p, w) ∈ s.wm.workers → w.alive = false → w.exitcode ≠ 0 →
      (∃ t ∈ dictValues s.tm.tasks, t.metadata = .worker p) →
      ∃ t, t ∈ dictValues s.tm.tasks ∧ t.metadata = .worker p ∧
        (t.tid, .processExpired w.exitcode) ∈ (s.update_workers).tm.resolved) ∧
    (s.update_workers).wm.workers.length
        = max (s.wm.workers.filter (fun e => e.2.alive)).length
            s.wm.workersNumber := by
  have hupd : s.update_workers =
      { s with tm := (s.wm.inspect_workers).1.foldl expireStep s.tm,
               wm := (s.wm.inspect_workers).2.create_workers } := rfl
  refine ⟨?_, ?_, ?_⟩
  · intro e he
    rw [hupd] at he
    rcases expire_fold_sound _ s.tm e he with h | ⟨p, c, t, hR, ht, hm, heq⟩
    · exact Or.inl h
    · rcases mem_inspect_reports.mp hR with ⟨w, hwv, hwa, hwp, hwc, hnz⟩
      exact Or.inr ⟨p, c, t, hnz, ⟨w, hwv, hwa, hwp, hwc⟩, ht, hm, heq⟩
  · intro p w hmem ha hnz hex
    have hwp : w.pid = p := hwf.2.1 (p, w) hmem
    have hR : (p, w.exitcode) ∈ (s.wm.inspect_workers).1 :=
      mem_inspect_reports.mpr
        ⟨w, List.mem_map_of_mem Prod.snd hmem, ha, hwp, rfl, hnz⟩
    obtain ⟨t, htv, htm, hres⟩ := expire_fold_complete _ s.tm hwft
      (inspect_reports_pids_nodup hwf) hR hex
    rw [hupd]
    exact ⟨t, htv, htm, hres⟩
  · rw [hupd]
    have hwm1 := inspect_workers_wm hwf
    have hlt1 : ∀ k ∈ dictKeys (s.wm.inspect_workers).2.workers,
        k < (s.wm.inspect_workers).2.nextPid := by
      intro k hk
      rw [hwm1.2.2]
      apply hwf.2.2
      rw [hwm1.1, dictKeys_def] at hk
      rw [dictKeys_def]
      exact ((List.filter_sublist _).map Prod.fst).subset hk
    show (s.wm.inspect_workers).2.create_workers.workers.length = _
    rw [create_workers_length hlt1, hwm1.1, hwm1.2.1]

/-- C5 witness: with one registered task tagged PID 6 and a dead PID-6
worker with exit code 5, `update_workers` resolves task 3 with
`ProcessExpired 5` and respawns up to the configured single worker. -/
theorem update_workers_expiry_witness :
    ((3 : Nat), TResult.processExpired 5) ∈ (expPM.update_workers).tm.resolved ∧
    (expPM.update_workers).wm.workers.length = 1 := by
  have h := update_workers_expiry expPM
    ⟨by decide, by decide, by decide⟩ ⟨by decide, by decide⟩
  obtain ⟨t, htv, htm, hres⟩ := h.2.1 6 ⟨6, false, 5⟩ (by decide) rfl (by decide)
    ⟨expTask, List.mem_singleton_self _, rfl⟩
  have ht : t = expTask := by
    have hts : t ∈ [expTask] := htv
    rwa [List.mem_singleton] at hts
  subst ht
  exact ⟨hres, h.2.2.trans (by decide)⟩

end Pebble
